import Mathlib

/-!
Verification model of the epanet-js locales translation pipeline.

The development shallowly embeds the core of the repository:

* `src/translate/walkers.ts` — the tree walker (`walkLeaves`) and the path
  mutators (`getAtPath`, `setAtPath`, `deleteAtPath`);
* `src/translate/diff.ts` — the three-snapshot diff (`diffKeys`);
* the placeholder validator (`extractPlaceholders`, `placeholdersMatch`);
* the chunk/retry executor (`chunk`, `retry`);
* the response validation of `callLLMArray` in `src/translate/llm.ts`;
* the orchestrator `run`, in both of its variants found in the repository
  (`src/main.ts`, and the Slack-reporting variant).

JSON documents are modelled by the inductive `JValue`; JavaScript objects are
association lists whose key order is the object's insertion order (JavaScript
objects never hold duplicate keys, which is recorded by the well-formedness
predicate `jwf` where a proof needs it).  Functions that recurse through the
tree along computed (sorted or looked-up) children take an explicit fuel
argument, instantiated with the structural height `jheight`; fuel-adequacy
lemmas recover the natural recursion equations.
-/

/-- A JSON value, as produced by parsing a catalog document. -/

inductive JValue where
  | str (s : String)
  | num (n : Int)
  | bool (b : Bool)
  | null
  | arr (elems : List JValue)
  | obj (entries : List (String × JValue))

/-- A JSON object: an association list in property insertion order. -/

abbrev JObj := List (String × JValue)

/-- Property read `o[k]`: the first (and in a real JavaScript object, only)
binding of `k`. -/

def objLookup (kvs : JObj) (k : String) : Option JValue :=
  (kvs.find? (fun e => e.1 == k)).map (·.2)

/-- Property write `o[k] = v`: updates the existing binding in place, or
appends a new binding, matching JavaScript property-order semantics. -/

def objSet (kvs : JObj) (k : String) (v : JValue) : JObj :=
  match kvs with
  | [] => [(k, v)]
  | e :: rest => if e.1 == k then (k, v) :: rest else e :: objSet rest k v

/-- Property delete `delete o[k]`. -/

def objDelete (kvs : JObj) (k : String) : JObj :=
  match kvs with
  | [] => []
  | e :: rest => if e.1 == k then rest else e :: objDelete rest k

/-- Test used by the walker's recursion guard:
`v && typeof v === "object" && !Array.isArray(v)`. -/

def isObjV : JValue → Bool
  | .obj _ => true
  | _ => false

/-! ### The collation model of `localeCompare`

`walkLeaves` sorts the keys of every object with
`keys.sort((a, b) => a.localeCompare(b))`.  `String.prototype.localeCompare`
with no arguments compares under the host's default locale collation (ICU /
CLDR root in Node.js), not by code point.  We model the fragment of that
collation relevant to catalog keys: a case-insensitive primary pass (letters
compare by their lowercased code points, so "a" sorts before "B"), an
uppercase-after-lowercase tertiary tie-break, and U+0000 completely ignorable.
Order between distinct collation-equal keys (which requires a U+0000 inside a
key) is not observed by any theorem below. -/

/-- Primary collation weights: ignorable U+0000 removed, case folded. -/

def collPrimary (s : String) : List Nat :=
  (s.data.filter (fun c => c.toNat != 0)).map (fun c => c.toLower.toNat)

/-- Tertiary collation weights: lowercase before uppercase. -/

def collTertiary (s : String) : List Nat :=
  (s.data.filter (fun c => c.toNat != 0)).map (fun c => if c.isUpper then 1 else 0)

/-- Lexicographic comparison of weight lists. -/

def lexCmp : List Nat → List Nat → Ordering
  | [], [] => .eq
  | [], _ :: _ => .lt
  | _ :: _, [] => .gt
  | a :: as', b :: bs' =>
    match compare a b with
    | .eq => lexCmp as' bs'
    | o => o

/-- Model of `a.localeCompare(b)` (sign only). -/

def localeCmp (a b : String) : Ordering :=
  match lexCmp (collPrimary a) (collPrimary b) with
  | .eq => lexCmp (collTertiary a) (collTertiary b)
  | o => o

/-- The comparator handed to `Array.prototype.sort`, as a `≤` test. -/

def localeLe (a b : String) : Bool := localeCmp a b != Ordering.gt

/-- Code-point (locale-independent) string order, the order the specification
text claims for the walker: plain lexicographic comparison of the code
points. -/

def codePointLe (a b : String) : Bool := cpLe a.data b.data
where cpLe : List Char → List Char → Bool
  | [], _ => true
  | _ :: _, [] => false
  | c :: cs, d :: ds =>
    if c.toNat < d.toNat then true
    else if d.toNat < c.toNat then false
    else cpLe cs ds

/-! ### Sorting

`Array.prototype.sort` with a comparator; insertion sort is an adequate model
(the comparators used here are total preorders, and no theorem observes the
order of collation-equal distinct keys). -/

def insertLe {α : Type} (le : α → α → Bool) (a : α) : List α → List α
  | [] => [a]
  | b :: t => if le a b then a :: b :: t else b :: insertLe le a t

def sortByLe {α : Type} (le : α → α → Bool) : List α → List α
  | [] => []
  | a :: t => insertLe le a (sortByLe le t)

/-! ### The tree walker -/

/-- A flattened catalog entry, as yielded by `walkLeaves`. -/

structure Leaf where
  path : List String
  value : String
deriving DecidableEq, Repr

/-- Height of the object nesting; this is the fuel needed by the walker. -/

def jheight : JValue → Nat
  | .obj kvs => 1 + listHeight kvs
  | _ => 0
where listHeight : List (String × JValue) → Nat
  | [] => 0
  | e :: rest => max (jheight e.2) (listHeight rest)

/-- Fueled translation of the generator `walkLeaves(obj, ...)`: the keys of
the current object are sorted with the `localeCompare` comparator; objects are
recursed into depth-first, string values are yielded as leaves, and any other
value (number, array, null, boolean) is skipped.  `walkLeaves` is only ever
applied to (and only recurses into) proper objects, so the model returns `[]`
on non-objects. -/

def walkLeavesF : Nat → List String → JValue → List Leaf
  | 0, _, _ => []
  | fuel + 1, pre, .obj kvs =>
    (sortByLe localeLe (kvs.map (·.1))).flatMap fun k =>
      match objLookup kvs k with
      | some v =>
        if isObjV v then walkLeavesF fuel (pre ++ [k]) v
        else
          match v with
          | .str s => [⟨pre ++ [k], s⟩]
          | _ => []
      | none => []
  | _ + 1, _, _ => []

/-- The tree walker `walkLeaves`, with adequate fuel. -/

def walkLeaves (pre : List String) (v : JValue) : List Leaf := walkLeavesF (jheight v) pre v

/-- The walker applied to a whole catalog document (default empty path). -/

def walkLeavesDoc (doc : JObj) : List Leaf := walkLeaves [] (.obj doc)

/-! ### Leaf lookup: the semantic characterization of the walker -/

/-- Strict path lookup through object nodes, succeeding exactly on string
leaves; this is the semantic notion of "`path` is a leaf of the catalog with
this value", against which the walker is characterized. -/

def leafAtV : JValue → List String → Option String
  | .str s, [] => some s
  | .obj kvs, k :: rest =>
    match objLookup kvs k with
    | some v => leafAtV v rest
    | none => none
  | _, _ => none

/-- Leaf lookup in a catalog document. -/

def leafAt (doc : JObj) (p : List String) : Option String := leafAtV (.obj doc) p

/-! ### The specification-side walker

`walkLeavesSpec le` renders the contract of §4.1 of the specification: at each
nesting level visit the entries sorted by `le` on their keys, recursing
depth-first into objects, yielding string leaves, and silently skipping every
other value.  Instantiated with `codePointLe` it is the walker the
specification text literally describes; instantiated with `localeLe` it is the
corrected contract. -/

def walkLeavesSpecF (le : String → String → Bool) :
    Nat → List String → JValue → List Leaf
  | 0, _, _ => []
  | fuel + 1, pre, .obj kvs =>
    (sortByLe (fun e1 e2 : String × JValue => le e1.1 e2.1) kvs).flatMap fun e =>
      match e.2 with
      | .str s => [⟨pre ++ [e.1], s⟩]
      | .obj kvs2 => walkLeavesSpecF le fuel (pre ++ [e.1]) (.obj kvs2)
      | _ => []
  | _ + 1, _, _ => []

/-- The specification's walker contract, with adequate fuel. -/

def walkLeavesSpec (le : String → String → Bool) (pre : List String) (v : JValue) :
    List Leaf :=
  walkLeavesSpecF le (jheight v) pre v

/-! ### Well-formedness: JavaScript objects have no duplicate keys -/

/-- Every object node of the value has duplicate-free keys.  Real JavaScript
objects satisfy this by construction; the model needs it wherever key lookup
and entry iteration are interchanged. -/

def jwf : JValue → Bool
  | .obj kvs => decide ((kvs.map (·.1)).Nodup) && listWF kvs
  | _ => true
where listWF : List (String × JValue) → Bool
  | [] => true
  | e :: rest => jwf e.2 && listWF rest

/-! ### Path mutators (`src/translate/walkers.ts`) -/

/-- Array element read `a[k]` for a string key: JavaScript arrays expose their
elements under canonical decimal index keys.  (Built-in non-index properties
such as `length` are not catalog data and are not modelled; they can only be
reached by a hand-crafted path, never by one produced by the walker.) -/

def arrGet (elems : List JValue) (k : String) : Option JValue :=
  match k.toNat? with
  | some n => if toString n == k then elems.get? n else none
  | none => none

/-- Accumulator form of `getAtPath`'s `reduce`: at each step the accumulator
is replaced by `acc[key]` when `acc` is a truthy object, and by `undefined`
(`none`) otherwise — the fold keeps running over the remaining keys either
way, exactly as `reduce` does. -/

def getAtPathAcc : Option JValue → List String → Option JValue
  | acc, [] => acc
  | acc, k :: rest =>
    getAtPathAcc
      (match acc with
        | some (.obj kvs) => objLookup kvs k
        | some (.arr elems) => arrGet elems k
        | _ => none)
      rest

/-- Translation of `getAtPath(obj, path)`. -/

def getAtPath (doc : JObj) (path : List String) : Option JValue :=
  getAtPathAcc (some (.obj doc)) path

/-- Translation of `setAtPath(doc, path, value)` (state-passing form of the
in-place mutation).  Intermediate nodes that are missing, falsy, non-objects
or arrays are overwritten with a fresh empty object; the final segment is then
assigned.  On the empty path the source executes `curr[path[-1]] = value`,
i.e. `curr[undefined] = value`, which coerces the property key to the string
"undefined". -/

def setAtPath (doc : JObj) (path : List String) (value : String) : JObj :=
  match path with
  | [] => objSet doc "undefined" (.str value)
  | [k] => objSet doc k (.str value)
  | k :: rest =>
    let child : JObj :=
      match objLookup doc k with
      | some (.obj kvs) => kvs
      | _ => []
    objSet doc k (.obj (setAtPath child rest value))

/-- Walk-and-delete core of `deleteAtPath`: `none` signals that the walk to
the parent of the final segment hit a missing or non-object node, in which
case the source returns early and no deletion or ancestor cleanup happens.
Otherwise the leaf binding is deleted and every ancestor object that became
empty is removed on the way back up (the bottom-up cleanup loop of the
source).  The walker only ever feeds it object-only paths, so array
intermediates (which never occur in catalog delete paths) are treated like
the other non-object values. -/

def deleteCore (doc : JObj) : List String → Option JObj
  | [] => some (objDelete doc "undefined")
  | [k] => some (objDelete doc k)
  | k :: rest =>
    match objLookup doc k with
    | some (.obj kvs) =>
      match deleteCore kvs rest with
      | some kvs2 =>
        some (if kvs2.isEmpty then objDelete doc k else objSet doc k (.obj kvs2))
      | none => none
    | _ => none

/-- Translation of `deleteAtPath(obj, path)`. -/

def deleteAtPath (doc : JObj) (path : List String) : JObj :=
  (deleteCore doc path).getD doc

/-! ### Path keys (`src/translate/diff.ts`)

`diffKeys` identifies a leaf by `path.join("\u0000")`. -/

/-- Translation of `path.join("\u0000")`. -/

def pathKey : List String → String
  | [] => ""
  | [k] => k
  | k :: rest => k ++ "\x00" ++ pathKey rest

/-- A string free of the U+0000 separator character. -/

def nulFreeStr (s : String) : Bool := s.data.all (fun c => c.toNat != 0)

/-- All leaf paths of the document are free of U+0000, so that the joined path
key identifies the leaf unambiguously. -/

def nulFreeLeaves (doc : JObj) : Bool :=
  (walkLeavesDoc doc).all (fun l => l.path.all nulFreeStr)

/-! ### The three-snapshot diff (`src/translate/diff.ts`) -/

/-- Lookup in a JavaScript `Map` built from a list of `(key, value)` pairs:
the constructor lets later pairs overwrite earlier ones, so the binding that
survives is the last one with the key. -/

def lookupLast (l : List (String × String)) (k : String) : Option String :=
  (l.reverse.find? (fun e => e.1 == k)).map (·.2)

/-- The diff result: parallel `toTranslatePaths`/`toTranslateValues`, plus the
paths to delete from the target. -/

structure DiffResult where
  deleted : List (List String)
  toTranslatePaths : List (List String)
  toTranslateValues : List String
deriving DecidableEq, Repr

/-- Per-leaf classification test of the new-or-modified loop of `diffKeys`:
new when the target has no leaf with the same joined key, modified when the
previously-synced source has a (string) value under the same joined key that
differs from the live value. -/

def diffWorkPred (targetKeys : List String) (localPairs : List (String × String))
    (l : Leaf) : Bool :=
  let key := pathKey l.path
  let isNew := !(targetKeys.contains key)
  let isModified :=
    match lookupLast localPairs key with
    | some v => v != l.value
    | none => false
  isNew || isModified

/-- Translation of `diffKeys(liveEN, localEN, target)`.  Leaves are indexed by
their path joined with U+0000; `deleted` collects the previously-synced leaves
that disappeared from the live source but still exist in the target; the work
lists collect, in walker order, the live leaves that are new or modified. -/

def diffKeys (liveEN localEN target : JObj) : DiffResult :=
  let liveLeaves := walkLeavesDoc liveEN
  let localLeaves := walkLeavesDoc localEN
  let targetKeys := (walkLeavesDoc target).map (fun l => pathKey l.path)
  let liveSet := liveLeaves.map (fun l => pathKey l.path)
  let deleted := (localLeaves.filter (fun l =>
    !(liveSet.contains (pathKey l.path)) && targetKeys.contains (pathKey l.path))).map
      (·.path)
  let localPairs := localLeaves.map (fun l => (pathKey l.path, l.value))
  let work := liveLeaves.filter (diffWorkPred targetKeys localPairs)
  ⟨deleted, work.map (·.path), work.map (·.value)⟩

/-! ### The placeholder validator (`placeholders.ts`)

`extractPlaceholders` runs three global regexes over the string and
concatenates their matches:

* `\x7b\x7b\s*[^\x7d]+\s*\x7d\x7d` — i18next interpolation;
* `\x7b\d+\x7d` — braced positional;
* `%(\d+\$)?[sd]` — printf style.

A global regex emits the leftmost matches one after another, resuming after
each match and advancing one character on failure; each `tryX` function below
decides whether a match starts at the current position and, if so, returns
the matched token and the remainder.  For these patterns greedy matching with
backtracking reduces to the plain scans implemented here. -/

def lbraceChar : Char := Char.ofNat 123

def rbraceChar : Char := Char.ofNat 125

/-- Generic global-regex driver; the fuel starts at the string length and
every step consumes at least one character. -/

def scanWithF (tryM : List Char → Option (String × List Char)) :
    Nat → List Char → List String
  | 0, _ => []
  | _ + 1, [] => []
  | fuel + 1, c :: rest =>
    match tryM (c :: rest) with
    | some (tok, rest2) => tok :: scanWithF tryM fuel rest2
    | none => scanWithF tryM fuel rest

def scanWith (tryM : List Char → Option (String × List Char)) (s : String) :
    List String :=
  scanWithF tryM s.data.length s.data

/-- Match of the double-brace pattern at the current position: two opening
braces, a nonempty run of non-closing-brace characters, two closing braces. -/

def tryDouble : List Char → Option (String × List Char)
  | c1 :: c2 :: rest =>
    if c1 == lbraceChar && c2 == lbraceChar then
      let mid := rest.takeWhile (fun c => c != rbraceChar)
      if mid.isEmpty then none
      else
        match rest.drop mid.length with
        | d1 :: d2 :: rest2 =>
          if d1 == rbraceChar && d2 == rbraceChar then
            some (String.mk (c1 :: c2 :: (mid ++ [d1, d2])), rest2)
          else none
        | _ => none
    else none
  | _ => none

/-- Match of the braced positional pattern: a brace, one or more digits, a
closing brace. -/

def tryBraced : List Char → Option (String × List Char)
  | c :: rest =>
    if c == lbraceChar then
      let digits := rest.takeWhile Char.isDigit
      if digits.isEmpty then none
      else
        match rest.drop digits.length with
        | d :: rest2 =>
          if d == rbraceChar then some (String.mk (c :: (digits ++ [d])), rest2)
          else none
        | _ => none
    else none
  | _ => none

/-- Match of the printf pattern: a percent sign, optionally digits followed by
a dollar sign, then `s` or `d`.  When digits are present but not followed by
`$` and `s`/`d`, backtracking to the empty group also fails, because the
conversion character position then holds a digit. -/

def tryPercent : List Char → Option (String × List Char)
  | c :: rest =>
    if c == '%' then
      let digits := rest.takeWhile Char.isDigit
      if digits.isEmpty then
        match rest with
        | d :: rest2 => if d == 's' || d == 'd' then some (String.mk [c, d], rest2) else none
        | _ => none
      else
        match rest.drop digits.length with
        | d1 :: d2 :: rest2 =>
          if d1 == '$' && (d2 == 's' || d2 == 'd') then
            some (String.mk (c :: (digits ++ [d1, d2])), rest2)
          else none
        | _ => none
    else none
  | _ => none

/-- Translation of `extractPlaceholders`: the three patterns' global matches,
concatenated in pattern order. -/

def extractPlaceholders (s : String) : List String :=
  scanWith tryDouble s ++ scanWith tryBraced s ++ scanWith tryPercent s

/-- Translation of `placeholdersMatch`: both extractions are sorted (the
default string sort) and compared elementwise — i.e. multiset equality of the
extracted tokens. -/

def placeholdersMatch (src out : String) : Bool :=
  sortByLe codePointLe (extractPlaceholders src) ==
    sortByLe codePointLe (extractPlaceholders out)

/-! ### Response validation of `callLLMArray` (`src/translate/llm.ts`)

The backend's raw text passes through `JSON.parse` and then four further
checks.  Parsing is an external collaborator here, so the validation is
modelled from the parse result: `none` for a parse failure, `some v` for a
parsed value `v`.  Each check corresponds to one distinct error. -/

inductive LLMError where
  | nonJson
  | notArray
  | nonStringItem
  | lengthMismatch
  | placeholderMismatch (idx : Nat) (src out : String)
deriving DecidableEq, Repr

/-- The `out.every(s => typeof s === "string")` check, returning the strings. -/

def asStrings : List JValue → Option (List String)
  | [] => some []
  | .str s :: rest => (asStrings rest).map (s :: ·)
  | _ :: _ => none

/-- The placeholder loop of `callLLMArray`: the first index whose input/output
pair fails `placeholdersMatch`, along with both strings. -/

def firstMismatch : List String → List String → Option (Nat × String × String)
  | s :: ss, o :: os =>
    if placeholdersMatch s o then
      (firstMismatch ss os).map (fun r => (r.1 + 1, r.2))
    else some (0, s, o)
  | _, _ => none

/-- The validation pipeline of `callLLMArray`, in source order: parse,
array shape, string elements, length, placeholders. -/

def validateLLMResponse (values : List String) (parsed : Option JValue) :
    Except LLMError (List String) :=
  match parsed with
  | none => .error .nonJson
  | some out =>
    match out with
    | .arr elems =>
      match asStrings elems with
      | none => .error .nonStringItem
      | some outs =>
        if outs.length != values.length then .error .lengthMismatch
        else
          match firstMismatch values outs with
          | some (i, s, o) => .error (.placeholderMismatch i s o)
          | none => .ok outs
    | _ => .error .notArray

/-- `callLLMArray` returns `[]` for an empty chunk before contacting the
backend; otherwise the response is validated in full. -/

def callLLMArrayValidate (values : List String) (parsed : Option JValue) :
    Except LLMError (List String) :=
  if values.isEmpty then .ok [] else validateLLMResponse values parsed

/-! ### The chunk-and-retry executor (`chunking.ts`) -/

/-- Outcome-oracle model of the retried async operation: `op i` is the
outcome of its `i`-th invocation (zero-indexed).  `retryFrom op i n last`
models the remaining `n` iterations of the retry loop starting at attempt
`i`, with `lastErr = last`; the backoff delay `baseMs * 2 ** attempt` only
suspends and has no observable effect in this embedding.  After the loop the
source throws `lastErr`, which is still `undefined` (`none`) when no attempt
ever ran. -/

def retryFrom {ε α : Type} (op : Nat → Except ε α) :
    Nat → Nat → Option ε → Except (Option ε) α
  | _, 0, last => .error last
  | i, n + 1, _ =>
    match op i with
    | .ok a => .ok a
    | .error e => retryFrom op (i + 1) n (some e)

/-- Translation of `retry(fn, tries, baseMs)`. -/

def retry {ε α : Type} (op : Nat → Except ε α) (tries : Nat) (_baseMs : Nat) :
    Except (Option ε) α :=
  retryFrom op 0 tries none

/-- Translation of `Array.prototype.slice(start, end)` with possibly negative
(or out-of-range) indices: negative indices count from the end, and the
bounds are clamped to the array. -/

def jsSlice {α : Type} (l : List α) (start endI : Int) : List α :=
  let len : Int := l.length
  let s := if start < 0 then max (len + start) 0 else min start len
  let e := if endI < 0 then max (len + endI) 0 else min endI len
  (l.take e.toNat).drop s.toNat

/-- Fueled translation of the loop of `chunk(arr, size)`:
`for (let i = 0; i < arr.length; i += size) out.push(arr.slice(i, i + size))`.
`none` means the fuel ran out — on inputs where the loop does not terminate,
every fuel value yields `none`. -/

def chunkLoopF {α : Type} (arr : List α) (size : Int) :
    Nat → Int → Option (List (List α))
  | 0, _ => none
  | fuel + 1, i =>
    if i < (arr.length : Int) then
      (chunkLoopF arr size fuel (i + size)).map (jsSlice arr i (i + size) :: ·)
    else some []

/-- `chunk(arr, size)` with fuel `arr.length + 1`, which suffices whenever
`size ≥ 1`. -/

def chunk {α : Type} (arr : List α) (size : Int) : Option (List (List α)) :=
  chunkLoopF arr size (arr.length + 1) 0

/-- Reference chunking: consecutive groups of `szm1 + 1` elements. -/

def chunkSpec {α : Type} (szm1 : Nat) : List α → List (List α)
  | [] => []
  | a :: rest => (a :: rest.take szm1) :: chunkSpec szm1 (rest.drop szm1)
termination_by l => l.length
decreasing_by
  simp only [List.length_cons, List.length_drop]
  omega

/-! ### The orchestrator `run`

The repository carries two versions of the orchestrator.  `src/main.ts`
aborts the whole run on the first per-language failure (no file is written);
the Slack-reporting variant wraps each language's translation in its own
try/catch, records the error, `continue`s with the other languages, and then
still commits every successful language's file — and the local EN sync.

External collaborators (the live fetch, the file reads, `translateValues`'
backend outcome) are oracles in `RunEnv`; the trace of observable effects is
collected as a list of `REvent`. -/

structure TargetLang where
  code : String
  name : String
deriving DecidableEq, Repr

inductive REvent where
  | fetchLive
  | readFile (path : String)
  | englishDiff
  | translateCall (code : String) (values : List String)
  | writeFile (path : String)
deriving DecidableEq, Repr

inductive RunErr where
  | fetchError (msg : String)
  | configError (code : String)
  | translateError (code msg : String)
deriving DecidableEq, Repr

structure RunEnv where
  fetchLive : Except String JObj
  readDoc : String → JObj
  translateVals : String → List String → Except String (List String)
  targets : List TargetLang
  dryRun : Bool
  githubActions : Bool

def localesDir : String := "locales"

def defaultNS : String := "translation"

def targetPathOf (code : String) : String :=
  localesDir ++ "/" ++ code ++ "/" ++ defaultNS ++ ".json"

def localENPath : String := targetPathOf "en"

def slackOutputFile : String := "slack-payload.json"

/-- Per-language mutation of the cloned target document: all deleted paths
via `deleteAtPath`, then every translated value at its paired path via
`setAtPath`.  (The source indexes `translatedValues[i]`; the zip is identical
whenever the backend result has the validated length.) -/

def applyChanges (target : JObj) (d : DiffResult) (translated : List String) : JObj :=
  let afterDel := d.deleted.foldl deleteAtPath target
  (d.toTranslatePaths.zip translated).foldl (fun acc pr => setAtPath acc pr.1 pr.2) afterDel

/-- Per-language loop of `src/main.ts`: the first failure aborts the whole
loop and the buffered proposals are discarded by the caller. -/

def processLangsMain (env : RunEnv) (liveEN localEN : JObj) :
    List TargetLang → List REvent × Except RunErr (List (String × JObj))
  | [] => ([], .ok [])
  | lang :: rest =>
    let tPath := targetPathOf lang.code
    let targetJson := env.readDoc tPath
    let d := diffKeys liveEN localEN targetJson
    let evT : List REvent :=
      if d.toTranslateValues.length > 0 then [.translateCall lang.code d.toTranslateValues]
      else []
    let tres : Except String (List String) :=
      if d.toTranslateValues.length > 0 then env.translateVals lang.code d.toTranslateValues
      else .ok []
    match tres with
    | .error msg => (.readFile tPath :: evT, .error (.translateError lang.code msg))
    | .ok translated =>
      let updated := applyChanges targetJson d translated
      match processLangsMain env liveEN localEN rest with
      | (evs, .error e) => (.readFile tPath :: evT ++ evs, .error e)
      | (evs, .ok ps) => (.readFile tPath :: evT ++ evs, .ok ((tPath, updated) :: ps))

/-- Translation of `run(languageCode)` from `src/main.ts`: fetch the live
source, read the local EN document, filter the configured languages (an
unknown code raises the configuration error), process every language, and
only then — outside dry runs — write every proposed document, plus the local
EN sync on full runs.  Any error reaches the outer catch before a single
write happens. -/

def runMain (env : RunEnv) (languageCode : Option String) :
    List REvent × Except RunErr Unit :=
  match env.fetchLive with
  | .error msg => ([.fetchLive], .error (.fetchError msg))
  | .ok liveEN =>
    let localEN := env.readDoc localENPath
    let evs0 : List REvent := [.fetchLive, .readFile localENPath]
    let langs :=
      match languageCode with
      | some c => env.targets.filter (fun l => l.code == c)
      | none => env.targets
    if languageCode.isSome && langs.isEmpty then
      (evs0, .error (.configError (languageCode.getD "")))
    else
      match processLangsMain env liveEN localEN langs with
      | (evs1, .error e) => (evs0 ++ evs1, .error e)
      | (evs1, .ok proposed) =>
        let wr : List REvent :=
          if env.dryRun then []
          else
            proposed.map (fun p => .writeFile p.1) ++
              (if languageCode.isNone then [.writeFile localENPath] else [])
        (evs0 ++ evs1 ++ wr, .ok ())

/-- Per-language loop of the Slack-reporting variant: a translation failure
is caught, flagged, and skipped — the remaining languages still run and
their proposals are kept. -/

def processLangsSlack (env : RunEnv) (liveEN localEN : JObj) :
    List TargetLang → List REvent × Bool × List (String × JObj)
  | [] => ([], false, [])
  | lang :: rest =>
    let tPath := targetPathOf lang.code
    let targetJson := env.readDoc tPath
    let d := diffKeys liveEN localEN targetJson
    let evT : List REvent :=
      if d.toTranslateValues.length > 0 then [.translateCall lang.code d.toTranslateValues]
      else []
    let tres : Except String (List String) :=
      if d.toTranslateValues.length > 0 then env.translateVals lang.code d.toTranslateValues
      else .ok []
    match tres, processLangsSlack env liveEN localEN rest with
    | .error _, (evs, _, ps) => (.readFile tPath :: evT ++ evs, true, ps)
    | .ok translated, (evs, he, ps) =>
      (.readFile tPath :: evT ++ evs, he, (tPath, applyChanges targetJson d translated) :: ps)

/-- Translation of `run(languageCode)` from the Slack-reporting variant: the
English-changes diff for the report runs right after the local EN read;
per-language failures are swallowed by the inner catch (`hasErrors` becomes
`true`, surfacing as exit code 1), after which the successful proposals are
still written, the local EN is still synced on full runs, and the Slack
payload file is written when running under GitHub Actions.  The returned
`Bool` is `hasErrors`. -/

def runSlack (env : RunEnv) (languageCode : Option String) :
    List REvent × Except RunErr Bool :=
  match env.fetchLive with
  | .error msg =>
    ([.fetchLive] ++ (if env.githubActions then [.writeFile slackOutputFile] else []),
      .error (.fetchError msg))
  | .ok liveEN =>
    let localEN := env.readDoc localENPath
    let evs0 : List REvent := [.fetchLive, .readFile localENPath, .englishDiff]
    let langs :=
      match languageCode with
      | some c => env.targets.filter (fun l => l.code == c)
      | none => env.targets
    if languageCode.isSome && langs.isEmpty then
      (evs0 ++ (if env.githubActions then [.writeFile slackOutputFile] else []),
        .error (.configError (languageCode.getD "")))
    else
      match processLangsSlack env liveEN localEN langs with
      | (evs1, hasErrors, proposed) =>
        let wr : List REvent :=
          if env.dryRun then []
          else
            proposed.map (fun p => .writeFile p.1) ++
              (if languageCode.isNone then [.writeFile localENPath] else [])
        let slackEv : List REvent :=
          if env.githubActions then [.writeFile slackOutputFile] else []
        (evs0 ++ evs1 ++ wr ++ slackEv, .ok hasErrors)

/-- Scenario in which the second configured language's translation fails:
live source modified `app.about`, both targets lack it, the backend succeeds
for fr and fails for nl. -/

def slackEnvFail : RunEnv where
  fetchLive := .ok [("app", .obj [("about", .str "About the app"), ("title", .str "Welcome")])]
  readDoc := fun path =>
    if path == localENPath then
      [("app", .obj [("about", .str "About this application"), ("title", .str "Welcome")])]
    else if path == targetPathOf "fr" then [("app", .obj [("title", .str "Bienvenue")])]
    else if path == targetPathOf "nl" then [("app", .obj [("title", .str "Welkom")])]
    else []
  translateVals := fun code vals =>
    if code == "fr" then .ok (vals.map (fun s => "FR:" ++ s))
    else .error "Length mismatch for nl"
  targets := [⟨"fr", "Francais (FR)"⟩, ⟨"nl", "Nederlands (NL)"⟩]
  dryRun := false
  githubActions := false

/-- Environment for the C8 counterexample and witness: two configured
languages, a successful fetch, and the unknown requested code "xx". -/

def cexEnv8 : RunEnv where
  fetchLive := .ok [("app", .obj [("title", .str "Welcome")])]
  readDoc := fun _ => []
  translateVals := fun _ vals => .ok vals
  targets := [⟨"es", "Espanol (ES)"⟩, ⟨"fr", "Francais (FR)"⟩]
  dryRun := false
  githubActions := false

/-! ### Theorems -/

theorem objLookup_objSet_self (kvs : JObj) (k : String) (v : JValue) :
    objLookup (objSet kvs k v) k = some v := by
  induction kvs with
  | nil => simp [objSet, objLookup, List.find?]
  | cons e rest ih =>
    by_cases h : e.1 == k
    · simp [objSet, h, objLookup, List.find?]
    · simp only [objSet, h, if_false, objLookup, List.find?] at ih ⊢
      simp [h, ih]

theorem objLookup_mem {kvs : JObj} {k : String} {v : JValue}
    (h : objLookup kvs k = some v) : (k, v) ∈ kvs := by
  simp only [objLookup, Option.map_eq_some'] at h
  obtain ⟨e, he, hv⟩ := h
  have hk := List.find?_some he
  have hmem := List.mem_of_find?_eq_some he
  simp only [beq_iff_eq] at hk
  cases e
  simp_all

theorem objLookup_of_mem_nodup {kvs : JObj} {e : String × JValue}
    (hnd : (kvs.map (·.1)).Nodup) (hmem : e ∈ kvs) :
    objLookup kvs e.1 = some e.2 := by
  induction kvs with
  | nil => cases hmem
  | cons a rest ih =>
    simp only [List.map_cons, List.nodup_cons] at hnd
    rcases List.mem_cons.mp hmem with h | h
    · subst h
      simp [objLookup, List.find?]
    · have hne : a.1 ≠ e.1 := by
        intro hcontra
        exact hnd.1 (hcontra ▸ List.mem_map_of_mem (·.1) h)
      have hfalse : (a.1 == e.1) = false := by simp [hne]
      have hrest := ih hnd.2 h
      simp only [objLookup, List.find?, hfalse] at hrest ⊢
      exact hrest

theorem mem_insertLe {α : Type} (le : α → α → Bool) (a x : α) (l : List α) :
    x ∈ insertLe le a l ↔ x = a ∨ x ∈ l := by
  induction l with
  | nil => simp [insertLe]
  | cons b t ih =>
    by_cases h : le a b
    · simp [insertLe, h, List.mem_cons]
      try tauto
    · simp [insertLe, h, List.mem_cons, ih]
      try tauto

theorem mem_sortByLe {α : Type} (le : α → α → Bool) (x : α) (l : List α) :
    x ∈ sortByLe le l ↔ x ∈ l := by
  induction l with
  | nil => simp [sortByLe]
  | cons a t ih =>
    simp [sortByLe, mem_insertLe, ih, List.mem_cons]

theorem map_insertLe {α β : Type} (f : α → β) (le : β → β → Bool) (a : α)
    (l : List α) :
    (insertLe (fun x y => le (f x) (f y)) a l).map f = insertLe le (f a) (l.map f) := by
  induction l with
  | nil => simp [insertLe]
  | cons b t ih =>
    by_cases h : le (f a) (f b)
    · simp [insertLe, h]
    · simp [insertLe, h, ih]

theorem map_sortByLe {α β : Type} (f : α → β) (le : β → β → Bool) (l : List α) :
    (sortByLe (fun x y => le (f x) (f y)) l).map f = sortByLe le (l.map f) := by
  induction l with
  | nil => simp [sortByLe]
  | cons a t ih =>
    simp [sortByLe, map_insertLe, ih]

theorem jheight_le_of_mem {kvs : JObj} {e : String × JValue} (h : e ∈ kvs) :
    jheight e.2 ≤ jheight.listHeight kvs := by
  induction kvs with
  | nil => cases h
  | cons a rest ih =>
    rcases List.mem_cons.mp h with h1 | h2
    · subst h1
      simp [jheight.listHeight]
    · have := ih h2
      simp only [jheight.listHeight]
      exact le_max_of_le_right this

theorem jheight_lookup_le {kvs : JObj} {k : String} {v : JValue}
    (h : objLookup kvs k = some v) : jheight v ≤ jheight.listHeight kvs :=
  jheight_le_of_mem (objLookup_mem h)

theorem walkLeavesF_eq_of_le :
    ∀ f1 f2 (v : JValue) (pre : List String), jheight v ≤ f1 → jheight v ≤ f2 →
      walkLeavesF f1 pre v = walkLeavesF f2 pre v := by
  intro f1
  induction f1 with
  | zero =>
    intro f2 v pre h1 h2
    cases v with
    | obj kvs => simp [jheight] at h1
    | str s => cases f2 <;> simp [walkLeavesF]
    | num n => cases f2 <;> simp [walkLeavesF]
    | bool b => cases f2 <;> simp [walkLeavesF]
    | null => cases f2 <;> simp [walkLeavesF]
    | arr es => cases f2 <;> simp [walkLeavesF]
  | succ m ih =>
    intro f2 v pre h1 h2
    cases v with
    | obj kvs =>
      cases f2 with
      | zero => simp [jheight] at h2
      | succ n =>
        simp only [walkLeavesF]
        congr 1
        funext k
        cases hlk : objLookup kvs k with
        | none => simp
        | some v =>
          have hb : jheight v ≤ jheight.listHeight kvs := jheight_lookup_le hlk
          have hm : jheight v ≤ m := by
            simp only [jheight] at h1
            omega
          have hn : jheight v ≤ n := by
            simp only [jheight] at h2
            omega
          simp only [ih n v (pre ++ [k]) hm hn]
    | str s => cases f2 <;> simp [walkLeavesF]
    | num n2 => cases f2 <;> simp [walkLeavesF]
    | bool b => cases f2 <;> simp [walkLeavesF]
    | null => cases f2 <;> simp [walkLeavesF]
    | arr es => cases f2 <;> simp [walkLeavesF]

/-- Recursion equation of `walkLeaves` on objects. -/

theorem walkLeaves_obj (pre : List String) (kvs : JObj) :
    walkLeaves pre (.obj kvs) =
      (sortByLe localeLe (kvs.map (·.1))).flatMap fun k =>
        match objLookup kvs k with
        | some v =>
          if isObjV v then walkLeaves (pre ++ [k]) v
          else
            match v with
            | .str s => [⟨pre ++ [k], s⟩]
            | _ => []
        | none => [] := by
  show walkLeavesF (jheight (.obj kvs)) pre (.obj kvs) = _
  simp only [jheight, Nat.add_comm 1 (jheight.listHeight kvs), walkLeavesF]
  congr 1
  funext k
  cases hlk : objLookup kvs k with
  | none => simp
  | some v =>
    have hb : jheight v ≤ jheight.listHeight kvs := jheight_lookup_le hlk
    simp only [walkLeaves]
    rw [walkLeavesF_eq_of_le (jheight.listHeight kvs) (jheight v) v (pre ++ [k]) hb (le_refl _)]

theorem walkLeaves_non_obj (pre : List String) (v : JValue) (h : isObjV v = false) :
    walkLeaves pre v = [] := by
  cases v <;> simp_all [walkLeaves, jheight, walkLeavesF, isObjV]

theorem walkLeaves_sound :
    ∀ (n : Nat) (v : JValue) (pre : List String) (l : Leaf), jheight v ≤ n →
      l ∈ walkLeaves pre v → ∃ p, l.path = pre ++ p ∧ leafAtV v p = some l.value := by
  intro n
  induction n with
  | zero =>
    intro v pre l hh hmem
    cases v with
    | obj kvs => simp [jheight] at hh
    | str s => simp [walkLeaves, jheight, walkLeavesF] at hmem
    | num n2 => simp [walkLeaves, jheight, walkLeavesF] at hmem
    | bool b => simp [walkLeaves, jheight, walkLeavesF] at hmem
    | null => simp [walkLeaves, jheight, walkLeavesF] at hmem
    | arr es => simp [walkLeaves, jheight, walkLeavesF] at hmem
  | succ m ih =>
    intro v pre l hh hmem
    cases v with
    | str s => simp [walkLeaves, jheight, walkLeavesF] at hmem
    | num n2 => simp [walkLeaves, jheight, walkLeavesF] at hmem
    | bool b => simp [walkLeaves, jheight, walkLeavesF] at hmem
    | null => simp [walkLeaves, jheight, walkLeavesF] at hmem
    | arr es => simp [walkLeaves, jheight, walkLeavesF] at hmem
    | obj kvs =>
      rw [walkLeaves_obj] at hmem
      obtain ⟨k, hk, hin⟩ := List.mem_flatMap.mp hmem
      cases hlk : objLookup kvs k with
      | none => simp [hlk] at hin
      | some w =>
        have hb : jheight w ≤ jheight.listHeight kvs := jheight_lookup_le hlk
        have hwm : jheight w ≤ m := by
          simp only [jheight] at hh
          omega
        simp only [hlk] at hin
        cases w with
        | obj kvs2 =>
          simp only [isObjV, if_true] at hin
          obtain ⟨p, hp, hv⟩ := ih (.obj kvs2) (pre ++ [k]) l hwm hin
          exact ⟨k :: p, by simp [hp], by simp [leafAtV, hlk, hv]⟩
        | str s =>
          simp only [isObjV] at hin
          simp only [Bool.false_eq_true, if_false, List.mem_singleton] at hin
          subst hin
          exact ⟨[k], by simp, by simp [leafAtV, hlk]⟩
        | num n2 => simp [isObjV] at hin
        | bool b => simp [isObjV] at hin
        | null => simp [isObjV] at hin
        | arr es => simp [isObjV] at hin

theorem walkLeaves_complete :
    ∀ (n : Nat) (v : JValue) (pre : List String) (p : List String) (s : String),
      jheight v ≤ n → leafAtV v p = some s → isObjV v = true →
      Leaf.mk (pre ++ p) s ∈ walkLeaves pre v := by
  intro n
  induction n with
  | zero =>
    intro v pre p s hh hleaf hobj
    cases v <;> simp_all [isObjV, jheight]
  | succ m ih =>
    intro v pre p s hh hleaf hobj
    cases v with
    | str s2 => simp [isObjV] at hobj
    | num n2 => simp [isObjV] at hobj
    | bool b => simp [isObjV] at hobj
    | null => simp [isObjV] at hobj
    | arr es => simp [isObjV] at hobj
    | obj kvs =>
      cases p with
      | nil => simp [leafAtV] at hleaf
      | cons k rest =>
        cases hlk : objLookup kvs k with
        | none => simp [leafAtV, hlk] at hleaf
        | some w =>
          simp only [leafAtV, hlk] at hleaf
          have hkmem : k ∈ kvs.map (·.1) := by
            have := objLookup_mem hlk
            exact List.mem_map_of_mem (·.1) this
          have hksort : k ∈ sortByLe localeLe (kvs.map (·.1)) :=
            (mem_sortByLe localeLe k _).mpr hkmem
          rw [walkLeaves_obj]
          apply List.mem_flatMap.mpr
          refine ⟨k, hksort, ?_⟩
          have hwm : jheight w ≤ m := by
            have := jheight_lookup_le hlk
            simp only [jheight] at hh
            omega
          cases w with
          | str s2 =>
            cases rest with
            | nil =>
              simp only [leafAtV, Option.some_inj] at hleaf
              subst hleaf
              simp [hlk, isObjV]
            | cons k2 rest2 => simp [leafAtV] at hleaf
          | obj kvs2 =>
            have := ih (.obj kvs2) (pre ++ [k]) rest s hwm hleaf rfl
            simp only [hlk, isObjV, if_true]
            simpa [List.append_assoc] using this
          | num n2 => simp [leafAtV] at hleaf
          | bool b => simp [leafAtV] at hleaf
          | null => simp [leafAtV] at hleaf
          | arr es => simp [leafAtV] at hleaf

/-- Walker soundness at the document level. -/

theorem walkLeavesDoc_sound {doc : JObj} {l : Leaf} (h : l ∈ walkLeavesDoc doc) :
    leafAt doc l.path = some l.value := by
  obtain ⟨p, hp, hv⟩ := walkLeaves_sound (jheight (.obj doc)) (.obj doc) [] l le_rfl h
  simpa [leafAt, hp] using hv

/-- Walker completeness at the document level. -/

theorem walkLeavesDoc_complete {doc : JObj} {p : List String} {s : String}
    (h : leafAt doc p = some s) : Leaf.mk p s ∈ walkLeavesDoc doc := by
  have := walkLeaves_complete (jheight (.obj doc)) (.obj doc) [] p s le_rfl h rfl
  simpa using this

/-- Leaf paths are never empty. -/

theorem leafAt_ne_nil {doc : JObj} {s : String} (h : leafAt doc [] = some s) : False := by
  simp [leafAt, leafAtV] at h

theorem flatMap_congr_mem {α β : Type} {l : List α} {f g : α → List β}
    (h : ∀ a ∈ l, f a = g a) : l.flatMap f = l.flatMap g := by
  induction l with
  | nil => simp
  | cons a t ih =>
    simp only [List.flatMap_cons]
    rw [h a (List.mem_cons_self a t), ih (fun x hx => h x (List.mem_cons_of_mem a hx))]

theorem walkLeavesSpecF_eq_of_le (le : String → String → Bool) :
    ∀ f1 f2 (v : JValue) (pre : List String), jheight v ≤ f1 → jheight v ≤ f2 →
      walkLeavesSpecF le f1 pre v = walkLeavesSpecF le f2 pre v := by
  intro f1
  induction f1 with
  | zero =>
    intro f2 v pre h1 h2
    cases v with
    | obj kvs => simp [jheight] at h1
    | str s => cases f2 <;> simp [walkLeavesSpecF]
    | num n => cases f2 <;> simp [walkLeavesSpecF]
    | bool b => cases f2 <;> simp [walkLeavesSpecF]
    | null => cases f2 <;> simp [walkLeavesSpecF]
    | arr es => cases f2 <;> simp [walkLeavesSpecF]
  | succ m ih =>
    intro f2 v pre h1 h2
    cases v with
    | obj kvs =>
      cases f2 with
      | zero => simp [jheight] at h2
      | succ n =>
        simp only [walkLeavesSpecF]
        apply flatMap_congr_mem
        intro e he
        have hmem : e ∈ kvs := (mem_sortByLe _ e kvs).mp he
        have hb : jheight e.2 ≤ jheight.listHeight kvs := jheight_le_of_mem hmem
        cases hv : e.2 with
        | obj kvs2 =>
          have hm : jheight (JValue.obj kvs2) ≤ m := by
            rw [hv] at hb
            simp only [jheight] at h1
            omega
          have hn : jheight (JValue.obj kvs2) ≤ n := by
            rw [hv] at hb
            simp only [jheight] at h2
            omega
          simp only [ih n (JValue.obj kvs2) (pre ++ [e.1]) hm hn]
        | str s => simp
        | num n2 => simp
        | bool b => simp
        | null => simp
        | arr es => simp
    | str s => cases f2 <;> simp [walkLeavesSpecF]
    | num n2 => cases f2 <;> simp [walkLeavesSpecF]
    | bool b => cases f2 <;> simp [walkLeavesSpecF]
    | null => cases f2 <;> simp [walkLeavesSpecF]
    | arr es => cases f2 <;> simp [walkLeavesSpecF]

theorem walkLeavesSpec_obj (le : String → String → Bool) (pre : List String)
    (kvs : JObj) :
    walkLeavesSpec le pre (.obj kvs) =
      (sortByLe (fun e1 e2 : String × JValue => le e1.1 e2.1) kvs).flatMap fun e =>
        match e.2 with
        | .str s => [⟨pre ++ [e.1], s⟩]
        | .obj kvs2 => walkLeavesSpec le (pre ++ [e.1]) (.obj kvs2)
        | _ => [] := by
  show walkLeavesSpecF le (jheight (.obj kvs)) pre (.obj kvs) = _
  simp only [jheight, Nat.add_comm 1 (jheight.listHeight kvs), walkLeavesSpecF]
  apply flatMap_congr_mem
  intro e he
  have hmem : e ∈ kvs := (mem_sortByLe _ e kvs).mp he
  have hb : jheight e.2 ≤ jheight.listHeight kvs := jheight_le_of_mem hmem
  cases hv : e.2 with
  | obj kvs2 =>
    rw [hv] at hb
    simp only [walkLeavesSpec]
    rw [walkLeavesSpecF_eq_of_le le (jheight.listHeight kvs) (jheight (JValue.obj kvs2))
      (JValue.obj kvs2) (pre ++ [e.1]) hb (le_refl _)]
  | str s => simp
  | num n2 => simp
  | bool b => simp
  | null => simp
  | arr es => simp

theorem jwf_obj_nodup {kvs : JObj} (h : jwf (.obj kvs) = true) :
    (kvs.map (·.1)).Nodup := by
  simp only [jwf, Bool.and_eq_true, decide_eq_true_eq] at h
  exact h.1

theorem jwf_listWF_of_mem {kvs : JObj} {e : String × JValue}
    (hl : jwf.listWF kvs = true) (hmem : e ∈ kvs) : jwf e.2 = true := by
  induction kvs with
  | nil => cases hmem
  | cons a rest ih =>
    simp only [jwf.listWF, Bool.and_eq_true] at hl
    rcases List.mem_cons.mp hmem with h1 | h1
    · subst h1
      exact hl.1
    · exact ih hl.2 h1

theorem jwf_of_mem {kvs : JObj} {e : String × JValue}
    (h : jwf (.obj kvs) = true) (hmem : e ∈ kvs) : jwf e.2 = true := by
  simp only [jwf, Bool.and_eq_true] at h
  exact jwf_listWF_of_mem h.2 hmem

theorem flatMap_map_eq {α β γ : Type} (f : α → β) (g : β → List γ) (l : List α) :
    (l.map f).flatMap g = l.flatMap (fun a => g (f a)) := by
  induction l with
  | nil => simp
  | cons a t ih => simp [ih]

/-- The implementation walker agrees with the specification contract under the
`localeCompare` collation, on well-formed (duplicate-key-free) documents. -/

theorem walkLeaves_eq_spec :
    ∀ (n : Nat) (v : JValue) (pre : List String), jheight v ≤ n → jwf v = true →
      walkLeaves pre v = walkLeavesSpec localeLe pre v := by
  intro n
  induction n with
  | zero =>
    intro v pre hh hwf
    cases v with
    | obj kvs => simp [jheight] at hh
    | str s => simp [walkLeaves, walkLeavesSpec, jheight, walkLeavesF, walkLeavesSpecF]
    | num n2 => simp [walkLeaves, walkLeavesSpec, jheight, walkLeavesF, walkLeavesSpecF]
    | bool b => simp [walkLeaves, walkLeavesSpec, jheight, walkLeavesF, walkLeavesSpecF]
    | null => simp [walkLeaves, walkLeavesSpec, jheight, walkLeavesF, walkLeavesSpecF]
    | arr es => simp [walkLeaves, walkLeavesSpec, jheight, walkLeavesF, walkLeavesSpecF]
  | succ m ih =>
    intro v pre hh hwf
    cases v with
    | str s => simp [walkLeaves, walkLeavesSpec, jheight, walkLeavesF, walkLeavesSpecF]
    | num n2 => simp [walkLeaves, walkLeavesSpec, jheight, walkLeavesF, walkLeavesSpecF]
    | bool b => simp [walkLeaves, walkLeavesSpec, jheight, walkLeavesF, walkLeavesSpecF]
    | null => simp [walkLeaves, walkLeavesSpec, jheight, walkLeavesF, walkLeavesSpecF]
    | arr es => simp [walkLeaves, walkLeavesSpec, jheight, walkLeavesF, walkLeavesSpecF]
    | obj kvs =>
      rw [walkLeaves_obj, walkLeavesSpec_obj]
      rw [← map_sortByLe (·.1) localeLe kvs]
      rw [flatMap_map_eq]
      apply flatMap_congr_mem
      intro e he
      have hmem : e ∈ kvs := (mem_sortByLe _ e kvs).mp he
      have hlk : objLookup kvs e.1 = some e.2 :=
        objLookup_of_mem_nodup (jwf_obj_nodup hwf) hmem
      rw [hlk]
      have hb : jheight e.2 ≤ jheight.listHeight kvs := jheight_le_of_mem hmem
      cases hv : e.2 with
      | obj kvs2 =>
        have hm : jheight (JValue.obj kvs2) ≤ m := by
          rw [hv] at hb
          simp only [jheight] at hh
          omega
        have hwf2 : jwf (JValue.obj kvs2) = true := hv ▸ jwf_of_mem hwf hmem
        simp only [isObjV, if_true]
        exact ih (JValue.obj kvs2) (pre ++ [e.1]) hm hwf2
      | str s => simp [isObjV]
      | num n2 => simp [isObjV]
      | bool b => simp [isObjV]
      | null => simp [isObjV]
      | arr es => simp [isObjV]

/-! Sanity checks of the walker model on concrete catalogs. -/

example :
    walkLeavesDoc [("b", .str "2"), ("a", .obj [("x", .str "1"), ("n", .num 3)])] =
      [⟨["a", "x"], "1"⟩, ⟨["b"], "2"⟩] := by decide

example : localeLe "a" "B" = true := by decide

theorem getAtPath_setAtPath (path : List String) :
    ∀ (doc : JObj) (value : String), path ≠ [] →
      getAtPath (setAtPath doc path value) path = some (.str value) := by
  induction path with
  | nil => intro doc value h; exact absurd rfl h
  | cons k rest ih =>
    intro doc value _
    cases rest with
    | nil =>
      simp [setAtPath, getAtPath, getAtPathAcc, objLookup_objSet_self]
    | cons k2 rest2 =>
      have hrec := ih (match objLookup doc k with
        | some (.obj kvs) => kvs
        | _ => []) value (by simp)
      simp only [setAtPath, getAtPath, getAtPathAcc, objLookup_objSet_self]
      exact hrec

theorem nulFreeStr_not_mem {s : String} (h : nulFreeStr s = true) :
    Char.ofNat 0 ∉ s.data := by
  intro hmem
  simp only [nulFreeStr, List.all_eq_true] at h
  have := h _ hmem
  simp [Char.ofNat] at this

theorem nul_split {l1 l2 t1 t2 : List Char}
    (h1 : Char.ofNat 0 ∉ l1) (h2 : Char.ofNat 0 ∉ l2)
    (heq : l1 ++ Char.ofNat 0 :: t1 = l2 ++ Char.ofNat 0 :: t2) :
    l1 = l2 ∧ t1 = t2 := by
  induction l1 generalizing l2 with
  | nil =>
    cases l2 with
    | nil => simpa using heq
    | cons c l2' =>
      simp only [List.nil_append, List.cons_append, List.cons_eq_cons] at heq
      exact absurd (heq.1 ▸ List.mem_cons_self c l2') h2
  | cons c l1' ih =>
    cases l2 with
    | nil =>
      simp only [List.nil_append, List.cons_append, List.cons_eq_cons] at heq
      exact absurd (heq.1.symm ▸ List.mem_cons_self c l1') h1
    | cons d l2' =>
      simp only [List.cons_append, List.cons_eq_cons] at heq
      have hc : c ∉ ({Char.ofNat 0} : Set Char) := by
        intro hmem
        simp only [Set.mem_singleton_iff] at hmem
        exact h1 (hmem ▸ List.mem_cons_self c l1')
      obtain ⟨hl, ht⟩ := ih (fun hm => h1 (List.mem_cons_of_mem c hm))
        (fun hm => h2 (heq.1 ▸ List.mem_cons_of_mem d hm)) heq.2
      exact ⟨by rw [heq.1, hl], ht⟩

theorem pathKey_data_cons (k : String) (rest : List String) (hne : rest ≠ []) :
    (pathKey (k :: rest)).data = k.data ++ Char.ofNat 0 :: (pathKey rest).data := by
  cases rest with
  | nil => exact absurd rfl hne
  | cons k2 rest2 =>
    show (k ++ "\x00" ++ pathKey (k2 :: rest2)).data = _
    rw [String.data_append, String.data_append]
    have h0 : "\x00".data = [Char.ofNat 0] := by decide
    rw [h0]
    simp

/-- Joined path keys are injective on nonempty NUL-free paths (leaf paths are
always nonempty). -/

theorem pathKey_inj :
    ∀ (p q : List String), p ≠ [] → q ≠ [] →
      p.all nulFreeStr = true → q.all nulFreeStr = true →
      pathKey p = pathKey q → p = q := by
  intro p
  induction p with
  | nil => intro q h; exact absurd rfl h
  | cons k prest ih =>
    intro q _ hq hpf hqf heq
    cases q with
    | nil => exact absurd rfl hq
    | cons k2 qrest =>
      simp only [List.all_cons, Bool.and_eq_true] at hpf hqf
      cases hpr : prest with
      | nil =>
        cases hqr : qrest with
        | nil =>
          subst hpr hqr
          simpa [pathKey] using heq
        | cons q1 qrest2 =>
          subst hpr hqr
          have hdata := congrArg String.data heq
          rw [pathKey_data_cons k2 (q1 :: qrest2) (by simp)] at hdata
          have : Char.ofNat 0 ∈ (pathKey [k]).data := by
            rw [hdata]
            exact List.mem_append_right _ (List.mem_cons_self _ _)
          simp only [pathKey] at this
          exact absurd this (nulFreeStr_not_mem hpf.1)
      | cons p1 prest2 =>
        cases hqr : qrest with
        | nil =>
          subst hpr hqr
          have hdata := congrArg String.data heq
          rw [pathKey_data_cons k (p1 :: prest2) (by simp)] at hdata
          have : Char.ofNat 0 ∈ (pathKey [k2]).data := by
            rw [← hdata]
            exact List.mem_append_right _ (List.mem_cons_self _ _)
          simp only [pathKey] at this
          exact absurd this (nulFreeStr_not_mem hqf.1)
        | cons q1 qrest2 =>
          subst hpr hqr
          have hdata := congrArg String.data heq
          rw [pathKey_data_cons k (p1 :: prest2) (by simp),
            pathKey_data_cons k2 (q1 :: qrest2) (by simp)] at hdata
          obtain ⟨hk, ht⟩ := nul_split (nulFreeStr_not_mem hpf.1)
            (nulFreeStr_not_mem hqf.1) hdata
          have hkeq : k = k2 := String.ext hk
          have hteq : pathKey (p1 :: prest2) = pathKey (q1 :: qrest2) := String.ext ht
          have := ih (q1 :: qrest2) (by simp) (by simp)
            (by simp [List.all_eq_true] at hpf ⊢; exact hpf.2)
            (by simp [List.all_eq_true] at hqf ⊢; exact hqf.2) hteq
          rw [hkeq, this]

theorem lookupLast_mem {l : List (String × String)} {k v : String}
    (h : lookupLast l k = some v) : (k, v) ∈ l := by
  simp only [lookupLast, Option.map_eq_some'] at h
  obtain ⟨e, he, hv⟩ := h
  have hk := List.find?_some he
  have hmem := List.mem_reverse.mp (List.mem_of_find?_eq_some he)
  simp only [beq_iff_eq] at hk
  cases e
  simp_all

theorem lookupLast_eq_none {l : List (String × String)} {k : String}
    (h : ∀ e ∈ l, e.1 ≠ k) : lookupLast l k = none := by
  simp only [lookupLast, Option.map_eq_none']
  apply List.find?_eq_none.mpr
  intro e he
  simp only [beq_iff_eq]
  exact h e (List.mem_reverse.mp he)

theorem lookupLast_eq_some {l : List (String × String)} {k v : String}
    (hmem : (k, v) ∈ l) (huniq : ∀ e ∈ l, e.1 = k → e.2 = v) :
    lookupLast l k = some v := by
  cases hfind : l.reverse.find? (fun e => e.1 == k) with
  | none =>
    have := List.find?_eq_none.mp hfind (k, v) (List.mem_reverse.mpr hmem)
    simp at this
  | some e =>
    have hk := List.find?_some hfind
    have hmem2 := List.mem_reverse.mp (List.mem_of_find?_eq_some hfind)
    simp only [beq_iff_eq] at hk
    have := huniq e hmem2 hk
    simp [lookupLast, hfind, this]

/-! The worked example of the specification (§8): the modified `app.about`
entry is retranslated, nothing is deleted. -/

example :
    diffKeys
      [("app", .obj [("title", .str "Welcome"), ("about", .str "About the app")])]
      [("app", .obj [("title", .str "Welcome"), ("about", .str "About this application")])]
      [("app", .obj [("title", .str "Bienvenue")])] =
    ⟨[], [["app", "about"]], ["About the app"]⟩ := by decide

theorem nulFreeLeaves_path {doc : JObj} {l : Leaf}
    (h : nulFreeLeaves doc = true) (hmem : l ∈ walkLeavesDoc doc) :
    l.path.all nulFreeStr = true := by
  simp only [nulFreeLeaves, List.all_eq_true] at h
  rw [List.all_eq_true]
  exact h l hmem

theorem walkLeavesDoc_path_ne_nil {doc : JObj} {l : Leaf} (hmem : l ∈ walkLeavesDoc doc) :
    l.path ≠ [] := by
  intro hnil
  have := walkLeavesDoc_sound hmem
  rw [hnil] at this
  exact leafAt_ne_nil this

/-- Under NUL-free previously-synced leaf paths, the surviving `Map` binding
for a leaf's joined key is exactly its previously-synced value. -/

theorem lookupLast_localPairs {localEN : JObj} {p : List String} {pv : String}
    (hnp : nulFreeLeaves localEN = true)
    (hp : leafAt localEN p = some pv) :
    lookupLast ((walkLeavesDoc localEN).map (fun l => (pathKey l.path, l.value)))
      (pathKey p) = some pv := by
  have hpmem : Leaf.mk p pv ∈ walkLeavesDoc localEN := walkLeavesDoc_complete hp
  apply lookupLast_eq_some
  · exact List.mem_map_of_mem _ hpmem
  · intro e he hkey
    obtain ⟨l, hl, hle⟩ := List.mem_map.mp he
    have hsound := walkLeavesDoc_sound hl
    have hqnf := nulFreeLeaves_path hnp hl
    have hpnf := nulFreeLeaves_path hnp hpmem
    have hqne := walkLeavesDoc_path_ne_nil hl
    have hpne := walkLeavesDoc_path_ne_nil hpmem
    have hkeyeq : pathKey l.path = pathKey p := by
      rw [← hle] at hkey
      exact hkey
    have hpatheq : l.path = p := pathKey_inj l.path p hqne hpne hqnf hpnf hkeyeq
    rw [hpatheq] at hsound
    rw [hp] at hsound
    rw [← hle]
    simp only
    exact Option.some_inj.mp hsound.symm

/-- Under NUL-free previously-synced leaf paths, a path with no
previously-synced leaf has no surviving `Map` binding either (provided the
path itself is NUL-free). -/

theorem lookupLast_localPairs_none {localEN : JObj} {p : List String}
    (hnp : nulFreeLeaves localEN = true)
    (hpne : p ≠ []) (hpnf : p.all nulFreeStr = true)
    (hp : leafAt localEN p = none) :
    lookupLast ((walkLeavesDoc localEN).map (fun l => (pathKey l.path, l.value)))
      (pathKey p) = none := by
  apply lookupLast_eq_none
  intro e he
  obtain ⟨l, hl, hle⟩ := List.mem_map.mp he
  have hsound := walkLeavesDoc_sound hl
  have hqnf := nulFreeLeaves_path hnp hl
  have hqne := walkLeavesDoc_path_ne_nil hl
  intro hkey
  rw [← hle] at hkey
  simp only at hkey
  have hpatheq : l.path = p := pathKey_inj l.path p hqne hpne hqnf hpnf hkey
  rw [hpatheq, hp] at hsound
  cases hsound

/-- C6: a leaf present in all three snapshots whose live value differs from
its previously-synced value is put on the translation work list, paired with
the live value — the stale target value notwithstanding.  (Amended with the
proviso that the previously-synced source's leaf paths are U+0000-free, so
that the joined-key identification is faithful; see the counterexample.) -/

theorem claim6_modified_overrides_target
    (liveEN localEN target : JObj) (p : List String) (lv pv tv : String)
    (hnp : nulFreeLeaves localEN = true)
    (hl : leafAt liveEN p = some lv) (hp : leafAt localEN p = some pv)
    (_ht : leafAt target p = some tv) (hne : lv ≠ pv) :
    (p, lv) ∈ (diffKeys liveEN localEN target).toTranslatePaths.zip
      (diffKeys liveEN localEN target).toTranslateValues := by
  have hlive : Leaf.mk p lv ∈ walkLeavesDoc liveEN := walkLeavesDoc_complete hl
  have hlast := lookupLast_localPairs hnp hp
  have hpred : diffWorkPred ((walkLeavesDoc target).map (fun l => pathKey l.path))
      ((walkLeavesDoc localEN).map (fun l => (pathKey l.path, l.value)))
      (Leaf.mk p lv) = true := by
    simp only [diffWorkPred, hlast, Bool.or_eq_true, bne_iff_ne]
    right
    exact fun h => hne h.symm
  simp only [diffKeys]
  rw [List.zip_map']
  apply List.mem_map.mpr
  exact ⟨Leaf.mk p lv, List.mem_filter.mpr ⟨hlive, hpred⟩, rfl⟩

/-- C7: a live leaf that was never recorded in the previously-synced source
but already exists in the target is classified Unchanged: it is neither
retranslated nor deleted.  (Amended with the proviso that the leaf paths of
the live and previously-synced sources are U+0000-free; see the
counterexample.) -/

theorem claim7_untracked_target_leaf_unchanged
    (liveEN localEN target : JObj) (p : List String) (lv tv : String)
    (hnl : nulFreeLeaves liveEN = true) (hnp : nulFreeLeaves localEN = true)
    (_hl : leafAt liveEN p = some lv) (hp : leafAt localEN p = none)
    (ht : leafAt target p = some tv) :
    p ∉ (diffKeys liveEN localEN target).toTranslatePaths ∧
    p ∉ (diffKeys liveEN localEN target).deleted := by
  constructor
  · intro hmem
    simp only [diffKeys] at hmem
    obtain ⟨l, hlw, hlp⟩ := List.mem_map.mp hmem
    obtain ⟨hlm, hpred⟩ := List.mem_filter.mp hlw
    have hsound := walkLeavesDoc_sound hlm
    rw [hlp] at hsound
    have hpne : p ≠ [] := hlp ▸ walkLeavesDoc_path_ne_nil hlm
    have hpnf : p.all nulFreeStr = true := hlp ▸ nulFreeLeaves_path hnl hlm
    have htmem : Leaf.mk p tv ∈ walkLeavesDoc target := walkLeavesDoc_complete ht
    have hkeymem : pathKey p ∈ (walkLeavesDoc target).map (fun l => pathKey l.path) := by
      have := List.mem_map_of_mem (fun l => pathKey l.path) htmem
      simpa using this
    have hcont : ((walkLeavesDoc target).map (fun l => pathKey l.path)).contains
        (pathKey p) = true := List.elem_iff.mpr hkeymem
    have hnone := lookupLast_localPairs_none hnp hpne hpnf hp
    simp only [diffWorkPred, hlp, hcont, hnone, Bool.not_true, Bool.or_eq_true,
      Bool.false_eq_true, or_false] at hpred
  · intro hmem
    simp only [diffKeys] at hmem
    obtain ⟨l, hlw, hlp⟩ := List.mem_map.mp hmem
    obtain ⟨hlm, _⟩ := List.mem_filter.mp hlw
    have hsound := walkLeavesDoc_sound hlm
    rw [hlp, hp] at hsound
    cases hsound

/-- C2 (counterexample): on the catalog with keys "a" and "B" the walker
visits "a" first — `localeCompare` collation ("a" before "B") — while the
code-point order the claim asserts would visit "B" (U+0042) before
"a" (U+0061).  The two contract instantiations therefore disagree. -/

theorem claim2_counterexample :
    (walkLeavesDoc [("a", .str "1"), ("B", .str "2")]).map (·.path) = [["a"], ["B"]] ∧
    (walkLeavesSpec codePointLe [] (.obj [("a", .str "1"), ("B", .str "2")])).map
      (·.path) = [["B"], ["a"]] ∧
    walkLeavesDoc [("a", .str "1"), ("B", .str "2")] ≠
      walkLeavesSpec codePointLe [] (.obj [("a", .str "1"), ("B", .str "2")]) := by
  refine ⟨by decide, by decide, by decide⟩

/-- C2 (amended): on documents without duplicate keys, `walkLeaves` yields the
leaves depth-first with the child keys at each level visited in
`localeCompare` collation order (not code-point order), skipping non-string,
non-object values silently; being a pure function of the catalog, the
sequence is identical on every invocation. -/

theorem claim2_walkLeaves_contract (v : JValue) (pre : List String)
    (hwf : jwf v = true) :
    walkLeaves pre v = walkLeavesSpec localeLe pre v :=
  walkLeaves_eq_spec (jheight v) v pre le_rfl hwf

theorem claim2_witness :
    jwf (.obj [("b", .str "2"), ("a", .obj [("x", .str "1"), ("n", .num 3)])]) = true ∧
    walkLeaves [] (.obj [("b", .str "2"), ("a", .obj [("x", .str "1"), ("n", .num 3)])]) =
      walkLeavesSpec localeLe []
        (.obj [("b", .str "2"), ("a", .obj [("x", .str "1"), ("n", .num 3)])]) :=
  ⟨by decide, claim2_walkLeaves_contract _ [] (by decide)⟩

/-- C5 (counterexample): on the empty path, `setAtPath` executes
`curr[path[-1]] = value`, storing the value under the coerced key
"undefined", and `getAtPath` of the empty path returns the document itself —
not the stored value.  The round trip fails. -/

theorem claim5_counterexample :
    setAtPath [] [] "v" = [("undefined", .str "v")] ∧
    getAtPath (setAtPath [] [] "v") [] ≠ some (.str "v") := by
  refine ⟨rfl, ?_⟩
  intro h
  rw [show getAtPath (setAtPath [] [] "v") [] =
    some (.obj [("undefined", .str "v")]) from rfl] at h
  injection h with h2
  cases h2

/-- C5 (amended): for every document, every nonempty path and every value,
reading the path back after setting it returns that value; `setAtPath`
overwrites non-object intermediates with fresh objects and never fails (it is
a total function). -/

theorem claim5_set_get_roundtrip (path : List String) (doc : JObj) (value : String)
    (h : path ≠ []) :
    getAtPath (setAtPath doc path value) path = some (.str value) :=
  getAtPath_setAtPath path doc value h

theorem claim5_witness :
    (["a", "b"] : List String) ≠ [] ∧
    getAtPath (setAtPath [("a", .str "old")] ["a", "b"] "v") ["a", "b"] =
      some (.str "v") :=
  ⟨by decide, claim5_set_get_roundtrip ["a", "b"] [("a", .str "old")] "v" (by decide)⟩

/-- C6 (counterexample): with a previously-synced source containing the key
"a\x00b" next to the nested leaf a.b, both leaves share the joined key, the
`Map` keeps the later binding, and a genuine live modification of a.b is
missed: the path appears in no work list although it is a leaf of all three
documents and its live and previously-synced values differ. -/

theorem claim6_counterexample :
    leafAt [("a", .obj [("b", .str "NEW")]), ("a\x00b", .str "NEW")] ["a", "b"] =
      some "NEW" ∧
    leafAt [("a", .obj [("b", .str "OLD")]), ("a\x00b", .str "NEW")] ["a", "b"] =
      some "OLD" ∧
    leafAt [("a", .obj [("b", .str "T")])] ["a", "b"] = some "T" ∧
    ("NEW" : String) ≠ "OLD" ∧
    ["a", "b"] ∉ (diffKeys
      [("a", .obj [("b", .str "NEW")]), ("a\x00b", .str "NEW")]
      [("a", .obj [("b", .str "OLD")]), ("a\x00b", .str "NEW")]
      [("a", .obj [("b", .str "T")])]).toTranslatePaths := by
  refine ⟨rfl, rfl, rfl, by decide, by decide⟩

theorem claim6_witness :
    nulFreeLeaves [("t", .str "A1")] = true ∧
    (["t"], "A2") ∈ (diffKeys [("t", .str "A2")] [("t", .str "A1")]
      [("t", .str "B")]).toTranslatePaths.zip
      (diffKeys [("t", .str "A2")] [("t", .str "A1")]
        [("t", .str "B")]).toTranslateValues :=
  ⟨by decide, claim6_modified_overrides_target
    [("t", .str "A2")] [("t", .str "A1")] [("t", .str "B")]
    ["t"] "A2" "A1" "B" (by decide) rfl rfl rfl (by decide)⟩

/-- C7 (counterexample): a previously-synced key "a\x00b" collides with the
live leaf a.b that was never recorded locally; the collision makes the leaf
look Modified, so it is retranslated although the claim says it must be left
Unchanged. -/

theorem claim7_counterexample :
    leafAt [("a", .obj [("b", .str "V")])] ["a", "b"] = some "V" ∧
    leafAt [("a\x00b", .str "W")] ["a", "b"] = none ∧
    leafAt [("a", .obj [("b", .str "T")])] ["a", "b"] = some "T" ∧
    ["a", "b"] ∈ (diffKeys [("a", .obj [("b", .str "V")])]
      [("a\x00b", .str "W")] [("a", .obj [("b", .str "T")])]).toTranslatePaths := by
  refine ⟨rfl, rfl, rfl, by decide⟩

theorem claim7_witness :
    nulFreeLeaves [("t", .str "A")] = true ∧
    ["t"] ∉ (diffKeys [("t", .str "A")] [] [("t", .str "B")]).toTranslatePaths ∧
    ["t"] ∉ (diffKeys [("t", .str "A")] [] [("t", .str "B")]).deleted := by
  have h := claim7_untracked_target_leaf_unchanged
    [("t", .str "A")] [] [("t", .str "B")] ["t"] "A" "B"
    (by decide) (by decide) rfl rfl rfl
  exact ⟨by decide, h.1, h.2⟩

/-- C9: `diffKeys` identifies a leaf by its path joined with U+0000.  On
NUL-free (and necessarily nonempty) leaf paths this identification coincides
with segment-wise path equality; but distinct paths such as ["a\x00b"] and
["a", "b"] share a joined key, and `diffKeys` then treats them as the same
leaf — concretely, a live catalog whose only key is "a\x00b" is considered
already present in a target that only holds the nested leaf a.b, so nothing
is queued for translation. -/

theorem claim9_pathkey_identification :
    (∀ p q : List String, p ≠ [] → q ≠ [] →
      p.all nulFreeStr = true → q.all nulFreeStr = true →
      (pathKey p = pathKey q ↔ p = q)) ∧
    (pathKey ["a\x00b"] = pathKey ["a", "b"] ∧
      (["a\x00b"] : List String) ≠ ["a", "b"]) ∧
    ((diffKeys [("a\x00b", .str "x")] [] [("a", .obj [("b", .str "y")])]).toTranslatePaths
        = [] ∧
      leafAt [("a", .obj [("b", .str "y")])] ["a\x00b"] = none ∧
      leafAt [("a\x00b", .str "x")] ["a\x00b"] = some "x") := by
  refine ⟨?_, ⟨by decide, by decide⟩, by decide, rfl, rfl⟩
  intro p q hp hq hpf hqf
  constructor
  · exact pathKey_inj p q hp hq hpf hqf
  · intro h
    rw [h]

theorem claim9_witness :
    ((["a", "b"] : List String) ≠ [] ∧ (["a", "b"] : List String).all nulFreeStr = true) ∧
    (pathKey ["a", "b"] = pathKey ["a", "c"] ↔ (["a", "b"] : List String) = ["a", "c"]) :=
  ⟨⟨by decide, by decide⟩, claim9_pathkey_identification.1 ["a", "b"] ["a", "c"]
    (by decide) (by decide) (by decide) (by decide)⟩

/-! Sanity checks mirroring the repository's own placeholder tests. -/

example :
    sortByLe codePointLe (extractPlaceholders "Hello \x7b\x7bname\x7d\x7d \x7b0\x7d %s and %1$s") =
      sortByLe codePointLe ["\x7b\x7bname\x7d\x7d", "\x7b0\x7d", "%1$s", "%s"] := by decide

example : placeholdersMatch "Hi \x7b\x7bx\x7d\x7d" "Salut \x7b\x7bx\x7d\x7d" = true := by decide

example : placeholdersMatch "A \x7b0\x7d B %s" "A \x7b0\x7d B %s" = true := by decide

example : placeholdersMatch "Hi \x7b\x7bx\x7d\x7d" "Salut \x7b\x7by\x7d\x7d" = false := by decide

example : placeholdersMatch "A \x7b0\x7d" "A \x7b1\x7d" = false := by decide

theorem asStrings_eq_some {elems : List JValue} {outs : List String}
    (h : asStrings elems = some outs) : elems = outs.map JValue.str := by
  induction elems generalizing outs with
  | nil =>
    simp only [asStrings, Option.some_inj] at h
    subst h
    rfl
  | cons e rest ih =>
    cases e with
    | str s =>
      simp only [asStrings, Option.map_eq_some'] at h
      obtain ⟨outs2, h2, hv⟩ := h
      subst hv
      simp [ih h2]
    | num n => simp [asStrings] at h
    | bool b => simp [asStrings] at h
    | null => simp [asStrings] at h
    | arr es => simp [asStrings] at h
    | obj kvs => simp [asStrings] at h

theorem asStrings_map_str (outs : List String) :
    asStrings (outs.map JValue.str) = some outs := by
  induction outs with
  | nil => rfl
  | cons s rest ih => simp [asStrings, ih]

theorem firstMismatch_eq_none {values outs : List String}
    (hlen : outs.length = values.length) :
    firstMismatch values outs = none ↔
      ∀ pr ∈ values.zip outs, placeholdersMatch pr.1 pr.2 = true := by
  induction values generalizing outs with
  | nil =>
    cases outs with
    | nil => simp [firstMismatch]
    | cons o os => simp at hlen
  | cons v vs ih =>
    cases outs with
    | nil => simp at hlen
    | cons o os =>
      simp only [List.length_cons, Nat.add_right_cancel_iff] at hlen
      by_cases hpm : placeholdersMatch v o = true
      · simp only [firstMismatch, hpm, if_true, Option.map_eq_none', List.zip_cons_cons,
          List.mem_cons]
        rw [ih hlen]
        constructor
        · intro hall pr hpr
          rcases hpr with h1 | h1
          · subst h1; exact hpm
          · exact hall pr h1
        · intro hall pr hpr
          exact hall pr (Or.inr hpr)
      · simp only [Bool.not_eq_true] at hpm
        simp only [firstMismatch, hpm, Bool.false_eq_true, if_false]
        constructor
        · intro h; cases h
        · intro hall
          have := hall (v, o) (by simp)
          simp only at this
          rw [hpm] at this
          cases this

theorem firstMismatch_spec {values outs : List String} {i : Nat} {s o : String}
    (h : firstMismatch values outs = some (i, s, o)) :
    values.getD i "" = s ∧ outs.getD i "" = o ∧ placeholdersMatch s o = false := by
  induction values generalizing outs i with
  | nil => simp [firstMismatch] at h
  | cons v vs ih =>
    cases outs with
    | nil => simp [firstMismatch] at h
    | cons o2 os =>
      by_cases hpm : placeholdersMatch v o2 = true
      · simp only [firstMismatch, hpm, if_true, Option.map_eq_some'] at h
        obtain ⟨r, hr, hre⟩ := h
        obtain ⟨r1, rs, ro⟩ := r
        simp only [Prod.mk.injEq] at hre
        have hi := hre.1
        have hs := hre.2.1
        have ho := hre.2.2
        subst hs
        subst ho
        obtain ⟨h1, h2, h3⟩ := ih hr
        subst hi
        exact ⟨by simpa using h1, by simpa using h2, h3⟩
      · simp only [Bool.not_eq_true] at hpm
        simp only [firstMismatch, hpm, Bool.false_eq_true, if_false,
          Option.some_inj, Prod.mk.injEq] at h
        obtain ⟨hi, hs, ho⟩ := h
        subst hs ho
        cases hi
        simp [hpm]

/-- C3: for a nonempty chunk, the translation call accepts a response exactly
when all five validations pass — the body parsed (`parsed` is not `none`),
the parsed value is an array, every element is a string, the length equals
the chunk's, and `placeholdersMatch` holds pairwise; and when the first four
pass but some index mismatches, the raised error names the first offending
index and both strings. -/

theorem claim3_response_validation (values : List String) (parsed : Option JValue)
    (hne : values ≠ []) :
    (∀ outs, callLLMArrayValidate values parsed = .ok outs ↔
      (parsed = some (.arr (outs.map JValue.str)) ∧ outs.length = values.length ∧
        ∀ pr ∈ values.zip outs, placeholdersMatch pr.1 pr.2 = true)) ∧
    (∀ outs i s o, parsed = some (.arr (outs.map JValue.str)) →
      outs.length = values.length → firstMismatch values outs = some (i, s, o) →
      callLLMArrayValidate values parsed =
        .error (.placeholderMismatch i (values.getD i "") (outs.getD i "")) ∧
      placeholdersMatch (values.getD i "") (outs.getD i "") = false) := by
  have hie : values.isEmpty = false := by
    cases values with
    | nil => exact absurd rfl hne
    | cons v vs => rfl
  constructor
  · intro outs
    constructor
    · intro hok
      simp only [callLLMArrayValidate, hie, Bool.false_eq_true, if_false] at hok
      cases parsed with
      | none => simp [validateLLMResponse] at hok
      | some out =>
        cases out with
        | arr elems =>
          cases hstr : asStrings elems with
          | none => simp [validateLLMResponse, hstr] at hok
          | some outs2 =>
            by_cases hlen : (outs2.length != values.length) = true
            · simp [validateLLMResponse, hstr, hlen] at hok
            · simp only [Bool.not_eq_true, bne_eq_false_iff_eq] at hlen
              cases hfm : firstMismatch values outs2 with
              | some r =>
                obtain ⟨i, s, o⟩ := r
                simp [validateLLMResponse, hstr, hlen, hfm] at hok
              | none =>
                have : outs2 = outs := by
                  simp only [validateLLMResponse, hstr, hlen, bne_self_eq_false,
                    Bool.false_eq_true, if_false, hfm] at hok
                  exact Except.ok.inj hok
                subst this
                refine ⟨by rw [asStrings_eq_some hstr], hlen, ?_⟩
                exact (firstMismatch_eq_none hlen).mp hfm
        | str s => simp [validateLLMResponse] at hok
        | num n => simp [validateLLMResponse] at hok
        | bool b => simp [validateLLMResponse] at hok
        | null => simp [validateLLMResponse] at hok
        | obj kvs => simp [validateLLMResponse] at hok
    · rintro ⟨hp, hlen, hall⟩
      subst hp
      have hfm : firstMismatch values outs = none := (firstMismatch_eq_none hlen).mpr hall
      simp [callLLMArrayValidate, hie, validateLLMResponse, asStrings_map_str, hlen,
        hfm]
  · intro outs i s o hp hlen hfm
    obtain ⟨hs, ho, hmm⟩ := firstMismatch_spec hfm
    subst hs
    subst ho
    constructor
    · subst hp
      simp [callLLMArrayValidate, hie, validateLLMResponse, asStrings_map_str, hlen,
        hfm]
    · exact hmm

theorem claim3_witness :
    (["Hi \x7b\x7bname\x7d\x7d"] : List String) ≠ [] ∧
    callLLMArrayValidate ["Hi \x7b\x7bname\x7d\x7d"]
        (some (.arr [.str "Bonjour \x7b\x7bnom\x7d\x7d"])) =
      .error (.placeholderMismatch 0 "Hi \x7b\x7bname\x7d\x7d" "Bonjour \x7b\x7bnom\x7d\x7d") ∧
    placeholdersMatch "Hi \x7b\x7bname\x7d\x7d" "Bonjour \x7b\x7bnom\x7d\x7d" = false := by
  have h := (claim3_response_validation ["Hi \x7b\x7bname\x7d\x7d"]
    (some (.arr [.str "Bonjour \x7b\x7bnom\x7d\x7d"])) (by decide)).2
    ["Bonjour \x7b\x7bnom\x7d\x7d"] 0 "Hi \x7b\x7bname\x7d\x7d" "Bonjour \x7b\x7bnom\x7d\x7d"
    rfl (by decide) (by decide)
  exact ⟨by decide, h.1, h.2⟩

theorem retryFrom_congr {ε α : Type} (op1 op2 : Nat → Except ε α) :
    ∀ (n i : Nat) (last : Option ε), (∀ j, j < n → op1 (i + j) = op2 (i + j)) →
      retryFrom op1 i n last = retryFrom op2 i n last := by
  intro n
  induction n with
  | zero => intro i last _; rfl
  | succ m ih =>
    intro i last h
    have h0 : op1 i = op2 i := by
      have := h 0 (Nat.succ_pos m)
      simpa using this
    simp only [retryFrom, h0]
    cases op2 i with
    | ok a => rfl
    | error e =>
      exact ih (i + 1) (some e) (fun j hj => by
        have := h (j + 1) (by omega)
        simpa [Nat.add_assoc, Nat.add_comm 1 j] using this)

theorem retryFrom_ok {ε α : Type} (op : Nat → Except ε α) {a : α} :
    ∀ (j n i : Nat) (last : Option ε), j < n → op (i + j) = .ok a →
      (∀ j2, j2 < j → ∃ e, op (i + j2) = .error e) →
      retryFrom op i n last = .ok a := by
  intro j
  induction j with
  | zero =>
    intro n i last hj hok0 hprev
    cases n with
    | zero => omega
    | succ m =>
      simp only [Nat.add_zero] at hok0
      simp [retryFrom, hok0]
  | succ j2 ih =>
    intro n i last hj hok hprev
    cases n with
    | zero => omega
    | succ m =>
      obtain ⟨e, he⟩ := hprev 0 (Nat.succ_pos j2)
      simp only [Nat.add_zero] at he
      simp only [retryFrom, he]
      apply ih m (i + 1) (some e) (by omega)
      · simpa [Nat.add_assoc, Nat.add_comm 1 j2] using hok
      · intro j3 hj3
        have := hprev (j3 + 1) (by omega)
        simpa [Nat.add_assoc, Nat.add_comm 1 j3] using this

theorem retryFrom_allfail {ε α : Type} (op : Nat → Except ε α) {e : ε} :
    ∀ (m i : Nat) (last : Option ε),
      (∀ j, j < m + 1 → ∃ e2, op (i + j) = .error e2) → op (i + m) = .error e →
      retryFrom op i (m + 1) last = .error (some e) := by
  intro m
  induction m with
  | zero =>
    intro i last _ hlast
    simp only [Nat.add_zero] at hlast
    simp [retryFrom, hlast]
  | succ m2 ih =>
    intro i last hall hlast
    obtain ⟨e0, he0⟩ := hall 0 (Nat.succ_pos _)
    simp only [Nat.add_zero] at he0
    simp only [retryFrom, he0]
    apply ih (i + 1) (some e0)
    · intro j hj
      have := hall (j + 1) (by omega)
      simpa [Nat.add_assoc, Nat.add_comm 1 j] using this
    · simpa [Nat.add_assoc, Nat.add_comm 1 m2] using hlast

/-- C4: with `maxAttempts ≥ 1`, `retry` (i) never consults the oracle beyond
the first `maxAttempts` attempts; (ii) returns the first successful outcome
and never consults any later attempt; (iii) when every attempt fails,
propagates the last attempt's error value unchanged. -/

theorem claim4_retry_budget {ε α : Type} (op : Nat → Except ε α)
    (tries baseMs : Nat) (htries : 1 ≤ tries) :
    (∀ op2 : Nat → Except ε α, (∀ i, i < tries → op2 i = op i) →
      retry op2 tries baseMs = retry op tries baseMs) ∧
    (∀ j a, j < tries → op j = .ok a → (∀ i, i < j → ∃ e, op i = .error e) →
      retry op tries baseMs = .ok a ∧
      ∀ op2 : Nat → Except ε α, (∀ i, i ≤ j → op2 i = op i) →
        retry op2 tries baseMs = .ok a) ∧
    (∀ e, (∀ i, i < tries → ∃ e2, op i = .error e2) → op (tries - 1) = .error e →
      retry op tries baseMs = .error (some e)) := by
  refine ⟨?_, ?_, ?_⟩
  · intro op2 h
    exact retryFrom_congr op2 op tries 0 none (fun j hj => by simpa using h j hj)
  · intro j a hj hok hprev
    constructor
    · exact retryFrom_ok op j tries 0 none hj (by simpa using hok)
        (fun j2 hj2 => by simpa using hprev j2 (by omega))
    · intro op2 h2
      apply retryFrom_ok op2 j tries 0 none hj
      · simpa [h2 j le_rfl] using hok
      · intro j2 hj2
        obtain ⟨e, he⟩ := hprev j2 hj2
        exact ⟨e, by simpa [h2 j2 (by omega)] using he⟩
  · intro e hall hlast
    cases tries with
    | zero => omega
    | succ m =>
      apply retryFrom_allfail op m 0 none (fun j hj => by simpa using hall j hj)
      simpa using hlast

theorem claim4_witness :
    retry (fun i => if i == 0 then (.error "boom" : Except String Nat) else .ok 7)
        2 800 = .ok 7 ∧
    retry (fun _ => (.error "boom" : Except String Nat)) 2 800 =
      .error (some "boom") := by
  constructor
  · have h := (claim4_retry_budget
      (fun i => if i == 0 then (.error "boom" : Except String Nat) else .ok 7)
      2 800 (by decide)).2.1 1 7 (by decide) rfl
      (by
        intro i hi
        have : i = 0 := by omega
        subst this
        exact ⟨"boom", rfl⟩)
    exact h.1
  · exact (claim4_retry_budget (fun _ => (.error "boom" : Except String Nat))
      2 800 (by decide)).2.2 "boom" (fun i _ => ⟨"boom", rfl⟩) rfl

theorem jsSlice_nonneg {α : Type} (l : List α) (i : Nat) (size : Int)
    (hsize : 1 ≤ size) (hi : i < l.length) :
    jsSlice l i (i + size) = (l.drop i).take size.toNat := by
  simp only [jsSlice]
  have h1 : ¬ ((i : Int) < 0) := by omega
  have h2 : ¬ ((i : Int) + size < 0) := by omega
  simp only [h1, if_false, h2]
  have hmin : min (i : Int) (l.length : Int) = (i : Int) := by omega
  rw [hmin, Int.toNat_natCast]
  have hminse : (min ((i : Int) + size) (l.length : Int)).toNat =
      min (i + size.toNat) l.length := by omega
  rw [hminse, List.drop_take]
  apply List.take_eq_take.mpr
  simp only [List.length_drop]
  omega

theorem chunkLoopF_spec {α : Type} (arr : List α) (size : Int) (hsize : 1 ≤ size) :
    ∀ (fuel : Nat) (i : Nat), arr.length - i < fuel →
      chunkLoopF arr size fuel i = some (chunkSpec (size.toNat - 1) (arr.drop i)) := by
  intro fuel
  induction fuel with
  | zero => intro i h; omega
  | succ f ih =>
    intro i h
    by_cases hi : i < arr.length
    · have hilt : (i : Int) < (arr.length : Int) := by omega
      simp only [chunkLoopF, hilt, if_true]
      have hnext : (i : Int) + size = ((i + size.toNat : Nat) : Int) := by omega
      rw [hnext, ih (i + size.toNat) (by omega)]
      simp only [Option.map_some', Option.some_inj]
      rw [← hnext, jsSlice_nonneg arr i size hsize hi]
      have hdrop : arr.drop (i + size.toNat) = (arr.drop i).drop size.toNat := by
        rw [List.drop_drop]
        try congr 1
        try omega
      rw [hdrop]
      obtain ⟨sz, hsz⟩ : ∃ sz, size.toNat = sz + 1 := ⟨size.toNat - 1, by omega⟩
      rw [hsz]
      simp only [Nat.add_sub_cancel]
      cases hd : arr.drop i with
      | nil =>
        exfalso
        have := List.drop_eq_nil_iff.mp hd
        omega
      | cons a rest =>
        simp [chunkSpec, List.take_succ_cons, List.drop_succ_cons]
    · have hilt : ¬ ((i : Int) < (arr.length : Int)) := by omega
      simp only [chunkLoopF, hilt, if_false]
      have hnil : arr.drop i = [] := List.drop_eq_nil_iff.mpr (by omega)
      rw [hnil]
      simp [chunkSpec]

theorem chunkLoopF_neg {α : Type} (arr : List α) (size : Int)
    (hne : arr ≠ []) (hsize : size ≤ 0) :
    ∀ (fuel : Nat) (i : Int), i ≤ 0 → chunkLoopF arr size fuel i = none := by
  intro fuel
  induction fuel with
  | zero => intro i _; rfl
  | succ f ih =>
    intro i hi
    have hlen : 0 < arr.length := List.length_pos.mpr hne
    have hilt : i < (arr.length : Int) := by omega
    simp only [chunkLoopF, hilt, if_true]
    rw [ih (i + size) (by omega)]
    rfl

/-- C10: `chunk` terminates and produces the consecutive groups whenever
`size ≥ 1`; but on every nonempty list with `size ≤ 0` the loop index never
reaches the bound and the loop runs forever (every fuel value is exhausted) —
the `size ≥ 1` precondition is nowhere checked by the code. -/

theorem claim10_chunk_termination {α : Type} (arr : List α) (size : Int) :
    (1 ≤ size → chunk arr size = some (chunkSpec (size.toNat - 1) arr)) ∧
    (arr ≠ [] → size ≤ 0 → ∀ fuel, chunkLoopF arr size fuel 0 = none) := by
  constructor
  · intro hsize
    have := chunkLoopF_spec arr size hsize (arr.length + 1) 0 (by omega)
    simpa [chunk] using this
  · intro hne hsize fuel
    exact chunkLoopF_neg arr size hne hsize fuel 0 le_rfl

theorem claim10_witness :
    chunk ["a", "b", "c"] 2 = some (chunkSpec 1 ["a", "b", "c"]) ∧
    chunkLoopF ["a", "b", "c"] 0 7 0 = none :=
  ⟨(claim10_chunk_termination ["a", "b", "c"] 2).1 (by decide),
    (claim10_chunk_termination ["a", "b", "c"] 0).2 (by decide) (by decide) 7⟩

example : chunk ["a", "b", "c"] 2 = some [["a", "b"], ["c"]] := by decide

/-- C1 (code bug): in the Slack-reporting orchestrator, when nl's translation
throws, the run still completes (with the error flag set) and still writes
both the fr catalog and the local EN document — contradicting the claim, the
variant's own header comment ("all-or-nothing atomic write for every
language") and the repository's orchestration test ("writes nothing if any
language fails validation").  The `src/main.ts` orchestrator, evaluated on
the same scenario, aborts with the translation error having written
nothing. -/

theorem claim1_commit_despite_language_failure :
    (runSlack slackEnvFail none).2 = .ok true ∧
    REvent.translateCall "nl" ["About the app"] ∈ (runSlack slackEnvFail none).1 ∧
    REvent.writeFile (targetPathOf "fr") ∈ (runSlack slackEnvFail none).1 ∧
    REvent.writeFile localENPath ∈ (runSlack slackEnvFail none).1 ∧
    (runMain slackEnvFail none).2 = .error (.translateError "nl" "Length mismatch for nl") ∧
    (runMain slackEnvFail none).1.filter
      (fun e => match e with | .writeFile _ => true | _ => false) = [] := by
  refine ⟨rfl, by decide, by decide, by decide, rfl, by decide⟩

/-- C8 (amended): an unknown language code makes both orchestrator versions
raise the configuration error before any target-language read, diff,
translation or write — but only after the live-source fetch and the local EN
read (and, in the Slack variant, the English-changes diff) have already
happened. -/

theorem claim8_unknown_language_code (env : RunEnv) (c : String) (live : JObj)
    (hf : env.fetchLive = .ok live)
    (hc : ∀ l ∈ env.targets, l.code ≠ c)
    (hgh : env.githubActions = false) :
    runMain env (some c) =
      ([.fetchLive, .readFile localENPath], .error (.configError c)) ∧
    runSlack env (some c) =
      ([.fetchLive, .readFile localENPath, .englishDiff], .error (.configError c)) := by
  have hfilter : env.targets.filter (fun l => l.code == c) = [] := by
    apply List.filter_eq_nil_iff.mpr
    intro l hl
    simp [hc l hl]
  constructor
  · simp [runMain, hf, hfilter]
  · simp [runSlack, hf, hfilter, hgh]

/-- C8 (counterexample): the configuration error for the unknown code "xx" is
raised, but the trace that precedes it already contains the live-source fetch
and the local EN file read — so the error is not raised "before any source
fetch or file read". -/

theorem claim8_counterexample :
    (runMain cexEnv8 (some "xx")).2 = .error (.configError "xx") ∧
    REvent.fetchLive ∈ (runMain cexEnv8 (some "xx")).1 ∧
    REvent.readFile localENPath ∈ (runMain cexEnv8 (some "xx")).1 := by
  refine ⟨rfl, by decide, by decide⟩

theorem claim8_witness :
    runMain cexEnv8 (some "xx") =
      ([.fetchLive, .readFile localENPath], .error (.configError "xx")) ∧
    runSlack cexEnv8 (some "xx") =
      ([.fetchLive, .readFile localENPath, .englishDiff], .error (.configError "xx")) :=
  claim8_unknown_language_code cexEnv8 "xx" [("app", .obj [("title", .str "Welcome")])]
    rfl (by decide) rfl

/-- Supporting fact for the C1 analysis: the per-language loop of
`src/main.ts` performs no write at all — its trace holds only reads and
translation calls. -/
theorem processLangsMain_no_writes (env : RunEnv) (liveEN localEN : JObj) :
    ∀ (langs : List TargetLang) (p : String),
      REvent.writeFile p ∉ (processLangsMain env liveEN localEN langs).1 := by
  intro langs
  induction langs with
  | nil =>
    intro p h
    simp [processLangsMain] at h
  | cons lang rest ih =>
    intro p hmem
    simp only [processLangsMain] at hmem
    by_cases hc :
        (diffKeys liveEN localEN (env.readDoc (targetPathOf lang.code))).toTranslateValues.length > 0
    · simp only [hc, if_true] at hmem
      cases htr : env.translateVals lang.code
          (diffKeys liveEN localEN (env.readDoc (targetPathOf lang.code))).toTranslateValues with
      | error msg =>
        rw [htr] at hmem
        simp at hmem
      | ok translated =>
        rw [htr] at hmem
        cases hres : processLangsMain env liveEN localEN rest with
        | mk evs res =>
          rw [hres] at hmem
          have ihp := ih p
          rw [hres] at ihp
          cases res with
          | error e =>
            simp at hmem
            exact ihp hmem
          | ok ps =>
            simp at hmem
            exact ihp hmem
    · simp only [hc, if_false] at hmem
      cases hres : processLangsMain env liveEN localEN rest with
      | mk evs res =>
        rw [hres] at hmem
        have ihp := ih p
        rw [hres] at ihp
        cases res with
        | error e =>
          simp at hmem
          exact ihp hmem
        | ok ps =>
          simp at hmem
          exact ihp hmem

/-- Supporting fact for the C1 analysis: when the `src/main.ts` orchestrator
ends in an error — in particular when any language's processing throws — its
trace holds no write event whatsoever: no target catalog and no local EN
document is written.  (The Slack-reporting variant violates this, as the C1
theorem shows on a concrete run.) -/
theorem runMain_error_no_writes (env : RunEnv) (lc : Option String) (e : RunErr)
    (herr : (runMain env lc).2 = .error e) (p : String) :
    REvent.writeFile p ∉ (runMain env lc).1 := by
  intro hmem
  cases hf : env.fetchLive with
  | error msg =>
    simp only [runMain, hf] at hmem
    simp at hmem
  | ok liveEN =>
    cases lc with
    | none =>
      simp only [runMain, hf, Option.isSome_none, Bool.false_and, Bool.false_eq_true,
        if_false] at herr hmem
      cases hres : processLangsMain env liveEN (env.readDoc localENPath) env.targets with
      | mk evs res =>
        rw [hres] at herr hmem
        have hnw := processLangsMain_no_writes env liveEN (env.readDoc localENPath)
          env.targets p
        rw [hres] at hnw
        cases res with
        | error e2 =>
          simp at hmem
          exact hnw hmem
        | ok ps => simp at herr
    | some c =>
      simp only [runMain, hf, Option.isSome_some, Bool.true_and] at herr hmem
      by_cases hemp :
          (env.targets.filter (fun l : TargetLang => l.code == c)).isEmpty = true
      · rw [if_pos hemp] at hmem
        simp at hmem
      · rw [if_neg hemp] at herr hmem
        cases hres : processLangsMain env liveEN (env.readDoc localENPath)
            (env.targets.filter (fun l : TargetLang => l.code == c)) with
        | mk evs res =>
          rw [hres] at herr hmem
          have hnw := processLangsMain_no_writes env liveEN (env.readDoc localENPath)
            (env.targets.filter (fun l : TargetLang => l.code == c)) p
          rw [hres] at hnw
          cases res with
          | error e2 =>
            simp at hmem
            exact hnw hmem
          | ok ps => simp at herr
